import Mathlib

/-
  Verification development for the claude-explorer log ingestion and
  search engine.  The definitions below are a shallow embedding of the
  TypeScript source: strings are modelled as Lean `String` (lists of
  characters), the JavaScript string operations used by the code
  (toLowerCase, trim, split, includes, the word-boundary regex test)
  are reproduced over `List Char` with ASCII semantics, and the
  streaming parser, index builder, query engine, statistics aggregator
  and snapshot cache are translated function by function.
-/

set_option maxHeartbeats 1000000

namespace ClaudeExplorer

/-- ASCII model of the JavaScript whitespace class used by trim and by
splitting on the regex matching whitespace runs. -/
def isWs (c : Char) : Bool :=
  c == ' ' || c == '\t' || c == '\n' || c == '\r'

/-- The JavaScript word-character class (the regex class backslash-w):
ASCII letters, digits and underscore. -/
def isWordChar (c : Char) : Bool :=
  c.isAlphanum || c == '_'

/-- ASCII model of JavaScript toLowerCase on one character. -/
def lowerC (c : Char) : Char :=
  match c with
  | 'A' => 'a' | 'B' => 'b' | 'C' => 'c' | 'D' => 'd' | 'E' => 'e'
  | 'F' => 'f' | 'G' => 'g' | 'H' => 'h' | 'I' => 'i' | 'J' => 'j'
  | 'K' => 'k' | 'L' => 'l' | 'M' => 'm' | 'N' => 'n' | 'O' => 'o'
  | 'P' => 'p' | 'Q' => 'q' | 'R' => 'r' | 'S' => 's' | 'T' => 't'
  | 'U' => 'u' | 'V' => 'v' | 'W' => 'w' | 'X' => 'x' | 'Y' => 'y'
  | 'Z' => 'z'
  | c => c

/-- Character-wise lowercasing of a character list. -/
def lowerL (l : List Char) : List Char :=
  l.map lowerC

/-- Model of JavaScript String.prototype.toLowerCase. -/
def lowerS (s : String) : String :=
  ⟨lowerL s.data⟩

/-- Model of JavaScript String.prototype.trim over character lists. -/
def trimL (l : List Char) : List Char :=
  (((l.dropWhile isWs).reverse).dropWhile isWs).reverse

/-- Model of JavaScript String.prototype.trim. -/
def trimS (s : String) : String :=
  ⟨trimL s.data⟩

/-- Model of substring(0, n) on a string. -/
def takeS (n : Nat) (s : String) : String :=
  ⟨s.data.take n⟩

/-- Splitting into maximal runs of non-whitespace characters: the model of
split on a whitespace regex followed by dropping empty pieces. -/
def splitWsAux : List Char → List Char → List (List Char)
  | [], acc => if acc.isEmpty then [] else [acc.reverse]
  | c :: cs, acc =>
    if isWs c then
      if acc.isEmpty then splitWsAux cs [] else acc.reverse :: splitWsAux cs []
    else
      splitWsAux cs (c :: acc)

/-- Whitespace tokenization of a character list. -/
def splitWs (l : List Char) : List (List Char) :=
  splitWsAux l []

/-- Whitespace tokenization of a string. -/
def splitWsS (s : String) : List String :=
  (splitWs s.data).map (fun l => ⟨l⟩)

/-- Maximal runs of word characters: the model of splitting on word
boundaries and keeping only the pieces that contain a word character. -/
def wordRunsAux : List Char → List Char → List (List Char)
  | [], acc => if acc.isEmpty then [] else [acc.reverse]
  | c :: cs, acc =>
    if isWordChar c then
      wordRunsAux cs (c :: acc)
    else
      if acc.isEmpty then wordRunsAux cs [] else acc.reverse :: wordRunsAux cs []

/-- Word-character runs of a character list. -/
def wordRuns (l : List Char) : List (List Char) :=
  wordRunsAux l []

/-- Whether pat is a prefix of text, comparing characters exactly. -/
def substrAt : List Char → List Char → Bool
  | [], _ => true
  | _ :: _, [] => false
  | p :: ps, t :: ts => p == t && substrAt ps ts

/-- Whether pat occurs as a contiguous substring of text: the model of
String.prototype.includes. -/
def containsSub (pat : List Char) : List Char → Bool
  | [] => substrAt pat []
  | c :: ts => substrAt pat (c :: ts) || containsSub pat ts

/-- Case-insensitive substring containment between strings. -/
def ciContains (text sub : String) : Bool :=
  containsSub (lowerL sub.data) (lowerL text.data)

/-- If pat (already lowercased) matches the start of text case-insensitively,
return the remaining text, otherwise none.  This is the matching step of a
literal regex pattern compiled with the case-insensitive flag. -/
def stripCI : List Char → List Char → Option (List Char)
  | [], t => some t
  | _ :: _, [] => none
  | p :: ps, t :: ts => if lowerC t == p then stripCI ps ts else none

/-- Word-character test on an optional character, where absence of a
character (the edge of the string) counts as a non-word character. -/
def wordAtO : Option Char → Bool
  | none => false
  | some c => isWordChar c

/-- The character immediately preceding the current scan position: the
last character of the consumed prefix, or the incoming previous character
when nothing has been consumed yet. -/
def lastO (prev : Option Char) (pre : List Char) : Option Char :=
  match pre.getLast? with
  | some c => some c
  | none => prev

/-- Whether the word-boundary-delimited pattern matches at the current
position: prev is the character immediately before the position. -/
def matchHere (pat : List Char) (prev : Option Char) (text : List Char) : Bool :=
  match stripCI pat text with
  | some rest =>
      (wordAtO prev != wordAtO text.head?) &&
      (wordAtO (text.take pat.length).getLast? != wordAtO rest.head?)
  | none => false

/-- Scan of the word-boundary regex test over all positions of the text. -/
def exactMatchAux (pat : List Char) : Option Char → List Char → Bool
  | prev, [] => matchHere pat prev []
  | prev, c :: ts => matchHere pat prev (c :: ts) || exactMatchAux pat (some c) ts

/-- Model of building the regex consisting of a word boundary, the escaped
lowercased pattern and a word boundary, with the case-insensitive flag, and
testing it against the text. -/
def exactMatch (pat text : List Char) : Bool :=
  exactMatchAux pat none text

/-! ## Data model

Structures mirroring the TypeScript types in lib/types.ts, restricted to
the fields the embedded functions read.  JavaScript string fields whose
truthiness the code tests are modelled as `String` with the empty string
standing for an absent or falsy value; object-valued optional fields are
modelled with `Option`. -/

/-- One typed content block of a message (TextContent, ThinkingContent,
ToolUse, ToolResult, or anything unrecognized). -/
inductive ContentBlock where
  | text (t : String)
  | thinking (t : String)
  | toolUse (name : String)
  | toolResult
  | other
  deriving DecidableEq

/-- A message content value: a plain string or an array of blocks. -/
inductive MContent where
  | str (s : String)
  | blocks (bs : List ContentBlock)
  deriving DecidableEq

/-- The nested message object of a log record (role and usage are not read
by the embedded code paths and are omitted). -/
structure InnerMessage where
  content : Option MContent := none
  deriving DecidableEq

/-- A parsed log record, also serving as a ConversationMessage once the
parser has set its sidechain flag.  Fields default to the falsy value. -/
structure Rec where
  type : String := ""
  uuid : String := ""
  timestamp : String := ""
  content : String := ""
  message : Option InnerMessage := none
  summary : String := ""
  isSidechain : Bool := false
  deriving DecidableEq

/-- One raw line of a log file, after the trim and the JSON.parse attempts:
blank (only whitespace), invalid (JSON.parse throws) or a parsed record. -/
inductive Line where
  | blank
  | invalid
  | record (r : Rec)
  deriving DecidableEq

/-- One logical conversation, as produced by the parser. -/
structure Conversation where
  id : String
  summary : Rec
  messages : List Rec
  messageCount : Nat
  lastUpdated : String
  projectId : String := ""
  deriving DecidableEq

/-! ## Fast project search index

Translation of lib/project-search-index-fast.ts. -/

/-- One unit of searchable text in the fast index. -/
structure IndexEntry where
  conversationId : String
  messageId : String
  text : String
  textLower : String
  timestamp : String
  deriving DecidableEq

/-- A search result: the conversation, its matching messages and their
count. -/
structure SearchResult where
  conversation : Conversation
  matchingMessages : List Rec
  matchCount : Nat
  deriving DecidableEq

/-- The fast index state: a flat entry sequence plus a conversation map.
The JavaScript Map is modelled as an insertion-ordered association list
with insert-or-replace semantics. -/
structure FastProjectSearchIndex where
  entries : List IndexEntry
  conversationMap : List (String × Conversation)
  deriving DecidableEq

/-- Insert-or-replace on the association list modelling a JavaScript Map. -/
def mapSet (m : List (String × Conversation)) (k : String) (v : Conversation) :
    List (String × Conversation) :=
  if m.any (fun p => p.1 == k) then
    m.map (fun p => if p.1 == k then (p.1, v) else p)
  else
    m ++ [(k, v)]

/-- Lookup on the association list modelling a JavaScript Map. -/
def mapGet (m : List (String × Conversation)) (k : String) : Option Conversation :=
  (m.find? (fun p => p.1 == k)).map (fun p => p.2)

/-- Space-separated join of a list of strings, the model of join with a
single space. -/
def joinSp : List String → String
  | [] => ""
  | [s] => s
  | s :: rest => s ++ " " ++ joinSp rest

/-- Extraction of searchable text from a message, translated from
FastProjectSearchIndex.extractSearchableText: a missing or falsy
message.content falls back to the direct content field of system messages;
string content is returned as is; block arrays contribute the text of the
text-typed blocks with nonempty text, joined by spaces. -/
def extractSearchableText (m : Rec) : String :=
  let sysFallback : String :=
    if m.type == "system" && m.content != "" then m.content else ""
  match m.message with
  | none => sysFallback
  | some im =>
    match im.content with
    | none => sysFallback
    | some (MContent.str s) => if s == "" then sysFallback else s
    | some (MContent.blocks bs) =>
      joinSp (bs.filterMap (fun b =>
        match b with
        | ContentBlock.text t => if t != "" then some t else none
        | _ => none))

/-- Index entries contributed by one conversation: one entry per message
with nonempty extracted text, with the lowercase form precomputed. -/
def entriesOfConversation (c : Conversation) : List IndexEntry :=
  c.messages.filterMap (fun m =>
    let t := extractSearchableText m
    if t == "" then none
    else some { conversationId := c.id, messageId := m.uuid, text := t,
                textLower := lowerS t, timestamp := m.timestamp })

/-- Translation of FastProjectSearchIndex.buildIndex. -/
def buildIndex (conversations : List Conversation) : FastProjectSearchIndex :=
  { entries := (conversations.map entriesOfConversation).flatten,
    conversationMap :=
      conversations.foldl (fun m c => mapSet m c.id c) [] }

/-- The two search modes of the query engine. -/
inductive SMode where
  | exact
  | regex
  deriving DecidableEq

/-- Query pre-processing of FastProjectSearchIndex.search: the lowercased
query is either kept whole (trimmed) in exact mode or split into
whitespace-separated nonempty terms in regex mode. -/
def fastQueryTerms (query : String) (mode : SMode) : List String :=
  let queryLower := lowerS query
  match mode with
  | SMode.exact => [trimS queryLower]
  | SMode.regex => splitWsS queryLower

/-- The per-entry matching test of FastProjectSearchIndex.search: exact
mode runs the word-boundary regex for the single term against the raw
text; regex mode requires every term to be a substring of the precomputed
lowercase text. -/
def entryMatchesFast (mode : SMode) (terms : List String) (e : IndexEntry) : Bool :=
  match mode with
  | SMode.exact => exactMatch (terms.headD "").data e.text.data
  | SMode.regex => terms.all (fun t => containsSub t.data e.textLower.data)

/-- The per-entry behaviour of FastProjectSearchIndex.search including its
empty-query guards. -/
def fastEntryMatches (query : String) (mode : SMode) (e : IndexEntry) : Bool :=
  if trimS query == "" then false
  else
    let terms := fastQueryTerms query mode
    if terms.isEmpty then false
    else entryMatchesFast mode terms e

/-- Record a matching message id under its conversation, preserving the
insertion order of the JavaScript Map and the uniqueness of the Set. -/
def addMatch (acc : List (String × List String)) (cid mid : String) :
    List (String × List String) :=
  if acc.any (fun p => p.1 == cid) then
    acc.map (fun p =>
      if p.1 == cid then (p.1, if p.2.contains mid then p.2 else p.2 ++ [mid]) else p)
  else
    acc ++ [(cid, [mid])]

/-- The entry scan of FastProjectSearchIndex.search, grouping matching
message ids by conversation. -/
def collectMatches (mode : SMode) (terms : List String)
    (entries : List IndexEntry) : List (String × List String) :=
  entries.foldl (fun acc e =>
    if entryMatchesFast mode terms e then addMatch acc e.conversationId e.messageId
    else acc) []

/-- The ordering used by the result sort: match count descending, ties by
the parsed lastUpdated time descending.  The time parameter stands for the
JavaScript Date parse of the timestamp string. -/
def resLE (time : String → Int) (a b : SearchResult) : Prop :=
  b.matchCount < a.matchCount ∨
    (a.matchCount = b.matchCount ∧
      time b.conversation.lastUpdated ≤ time a.conversation.lastUpdated)

instance (time : String → Int) : DecidableRel (resLE time) :=
  fun a b => by unfold resLE; infer_instance

/-- Translation of FastProjectSearchIndex.search: guard empty queries,
pre-process the query, scan the entries, hydrate each matched conversation
from the map, and sort by match count descending with recency as the tie
break. -/
def FastProjectSearchIndex.search (idx : FastProjectSearchIndex)
    (query : String) (mode : SMode) (time : String → Int) : List SearchResult :=
  if trimS query == "" then []
  else
    let terms := fastQueryTerms query mode
    if terms.isEmpty then []
    else
      let cm := collectMatches mode terms idx.entries
      let results := cm.filterMap (fun p =>
        match mapGet idx.conversationMap p.1 with
        | none => none
        | some conv =>
          let mm := conv.messages.filter (fun m => p.2.contains m.uuid)
          some { conversation := conv, matchingMessages := mm, matchCount := mm.length })
      List.insertionSort (resLE time) results

/-- The search method as a state transformer on the index object.  The
method body reads the entries and the conversation map but contains no
assignment to either field, so the post-state is the pre-state. -/
def FastProjectSearchIndex.searchState (idx : FastProjectSearchIndex)
    (query : String) (mode : SMode) (time : String → Int) :
    List SearchResult × FastProjectSearchIndex :=
  (idx.search query mode time, idx)

/-! ## Token-based project search index

Translation of the matching path of lib/project-search-index.ts. -/

/-- Translation of ProjectSearchIndex.tokenize: lowercase, split on word
boundaries, keep the pieces that are nonempty after trimming and contain a
word character.  These are exactly the maximal word-character runs of the
lowercased text.  The Set is modelled as the run list (membership is all
the matcher uses). -/
def tokenize (s : String) : List String :=
  (wordRuns (lowerL s.data)).map (fun l => ⟨l⟩)

/-- One entry of the token-based index. -/
structure SimpleEntry where
  conversationId : String
  messageId : String
  text : String
  tokens : List String
  timestamp : String
  deriving DecidableEq

/-- The per-entry behaviour of ProjectSearchIndex.search including its
empty-query guard: every query token must be a substring of some token of
the entry. -/
def simpleEntryMatches (query : String) (e : SimpleEntry) : Bool :=
  if trimS query == "" then false
  else
    (tokenize query).all (fun qt =>
      e.tokens.any (fun et => containsSub qt.data et.data))

/-! ## Streaming conversation parser

Translation of lib/server/conversation-parser.ts. -/

/-- The running state of parseConversationStream. -/
structure PState where
  summary : Option Rec
  messages : List Rec
  sideChainDepth : Int
  lastMessageTimestamp : String
  deriving DecidableEq

/-- The initial parser state.  The now parameter stands for the ISO string
of the current time taken when the parse starts. -/
def initPState (now : String) : PState :=
  { summary := none, messages := [], sideChainDepth := 0,
    lastMessageTimestamp := now }

/-- Processing of one log line, translated from the loop body of
parseConversationStream: blank lines and lines whose JSON.parse throws are
skipped; summary records replace the current summary; sidechain markers
move the depth counter, flooring at zero; user and assistant records are
appended with the sidechain flag set from the counter; system records are
appended unchanged (their content field already defaults to empty). -/
def pstep (s : PState) (l : Line) : PState :=
  match l with
  | Line.blank => s
  | Line.invalid => s
  | Line.record d =>
    if d.type == "conversation.summary" || d.type == "summary" then
      { s with summary := some d }
    else if d.type == "sidechain.start" then
      { s with sideChainDepth := s.sideChainDepth + 1 }
    else if d.type == "sidechain.end" then
      { s with sideChainDepth := max 0 (s.sideChainDepth - 1) }
    else if d.type == "user" || d.type == "assistant" then
      { s with
        messages := s.messages ++ [{ d with isSidechain := decide (0 < s.sideChainDepth) }],
        lastMessageTimestamp :=
          if d.timestamp == "" then s.lastMessageTimestamp else d.timestamp }
    else if d.type == "system" then
      { s with
        messages := s.messages ++ [d],
        lastMessageTimestamp :=
          if d.timestamp == "" then s.lastMessageTimestamp else d.timestamp }
    else s

/-- The line loop of parseConversationStream. -/
def runLines (now : String) (lines : List Line) : PState :=
  lines.foldl pstep (initPState now)

/-- Ellipsis truncation at fifty characters, applied to an already trimmed
string, translated from the summary synthesis of parseConversationStream. -/
def trunc50 (s : String) : String :=
  if 50 < s.data.length then takeS 50 s ++ "..." else s

/-- The first text-typed block carrying a text field, translated from the
find call of the summary synthesis. -/
def firstTextBlock : List ContentBlock → Option String
  | [] => none
  | ContentBlock.text t :: _ => some t
  | _ :: bs => firstTextBlock bs

/-- The text of the synthesized summary, translated from the summary
synthesis block of parseConversationStream, as a function of the
conversation id and the first user message. -/
def synthText (conversationId : String) (firstUser : Option Rec) : String :=
  let fallback := "Conversation " ++ takeS 8 conversationId
  match firstUser with
  | none => fallback
  | some m =>
    match m.message with
    | none => fallback
    | some im =>
      match im.content with
      | some (MContent.str s) =>
        if trimS s != "" then trunc50 (trimS s) else fallback
      | some (MContent.blocks bs) =>
        match firstTextBlock bs with
        | some t => trunc50 (trimS t)
        | none => fallback
      | none => fallback

/-- The timestamp of the synthesized summary: the first user message
timestamp when present and truthy, otherwise the running last message
timestamp. -/
def synthTs (firstUser : Option Rec) (lastTs : String) : String :=
  match firstUser with
  | some m => if m.timestamp == "" then lastTs else m.timestamp
  | none => lastTs

/-- Translation of parseConversationStream: run the line loop, synthesize
a summary when none was seen, and assemble the conversation. -/
def parseConversationStream (conversationId now : String)
    (lines : List Line) : Conversation :=
  let st := runLines now lines
  let summary : Rec :=
    match st.summary with
    | some s => s
    | none =>
      let firstUser := st.messages.find? (fun m => m.type == "user")
      { type := "conversation.summary",
        summary := synthText conversationId firstUser,
        timestamp := synthTs firstUser st.lastMessageTimestamp }
  { id := conversationId,
    summary := summary,
    messages := st.messages,
    messageCount := st.messages.length,
    lastUpdated :=
      if summary.timestamp == "" then st.lastMessageTimestamp else summary.timestamp,
    projectId := "" }

/-! ## Statistics aggregator

Translation of the scan in app/api/projects/[projectId]/stats/route.ts.
The daily-activity histogram, the token estimate and the per-tool
breakdown are omitted from the aggregate record (they need Date parsing
and JSON serialization); the dateOk parameter tells whether the Date
constructor accepts a timestamp string, since a throwing toISOString call
aborts the remaining per-line updates. -/

/-- The aggregated project statistics fields carried by the embedding. -/
structure PStats where
  totalConversations : Nat := 0
  totalMessages : Nat := 0
  totalUserMessages : Nat := 0
  totalAssistantMessages : Nat := 0
  totalToolCalls : Nat := 0
  totalThinkingBlocks : Nat := 0
  longestId : String := ""
  longestCount : Nat := 0
  deriving DecidableEq

/-- Tool-call and thinking-block counting over one content block of an
assistant message. -/
def blockCount (t : PStats) (b : ContentBlock) : PStats :=
  match b with
  | ContentBlock.toolUse _ => { t with totalToolCalls := t.totalToolCalls + 1 }
  | ContentBlock.thinking _ => { t with totalThinkingBlocks := t.totalThinkingBlocks + 1 }
  | _ => t

/-- Whether a record is a message record for the statistics scan. -/
def isMsgType (d : Rec) : Bool :=
  d.type == "user" || d.type == "assistant" || d.type == "system"

/-- Statistics counter updates for one parsed record.  A timestamp the
Date constructor rejects makes toISOString throw inside the per-line try,
skipping the role counters that the source updates after the date
tracking. -/
def statRecord (dateOk : String → Bool) (s : PStats) (d : Rec) : PStats :=
  if isMsgType d then
    let s := { s with totalMessages := s.totalMessages + 1 }
    if dateOk d.timestamp then
      if d.type == "user" then
        { s with totalUserMessages := s.totalUserMessages + 1 }
      else if d.type == "assistant" then
        let s := { s with totalAssistantMessages := s.totalAssistantMessages + 1 }
        match d.message with
        | some im =>
          match im.content with
          | some (MContent.blocks bs) => bs.foldl blockCount s
          | _ => s
        | none => s
      else s
    else s
  else s

/-- Per-line statistics update.  The accumulator carries the statistics,
the message count of the current conversation and the hasContent flag,
which is set for every nonblank line before the JSON.parse attempt. -/
def statLine (dateOk : String → Bool) (acc : PStats × Nat × Bool) (l : Line) :
    PStats × Nat × Bool :=
  match l with
  | Line.blank => acc
  | Line.invalid => (acc.1, acc.2.1, true)
  | Line.record d =>
    (statRecord dateOk acc.1 d, acc.2.1 + (if isMsgType d then 1 else 0), true)

/-- End-of-file bookkeeping of the statistics scan: the conversation
counter is decremented again when no nonblank line was seen, otherwise the
longest conversation is updated. -/
def statFinish (fileId : String) (r : PStats × Nat × Bool) : PStats :=
  if r.2.2 = false then
    { r.1 with totalConversations := r.1.totalConversations - 1 }
  else if r.1.longestCount < r.2.1 then
    { r.1 with longestId := fileId, longestCount := r.2.1 }
  else r.1

/-- Statistics contribution of one conversation file: the conversation
counter is incremented up front, the lines are scanned, and the
end-of-file bookkeeping runs. -/
def statFile (dateOk : String → Bool) (s0 : PStats) (fileId : String)
    (lines : List Line) : PStats :=
  statFinish fileId
    (lines.foldl (statLine dateOk)
      ({ s0 with totalConversations := s0.totalConversations + 1 }, 0, false))

/-- The statistics scan over all conversation files of a project. -/
def projectStats (dateOk : String → Bool)
    (files : List (String × List Line)) : PStats :=
  files.foldl (fun s f => statFile dateOk s f.1 f.2) {}

/-! ## Statistics snapshot cache

Model of the cache check and write of the stats route: the file system
interactions are represented by their observable outcomes. -/

/-- The environment of one stats request, after the project existence
check: the directory modification time, the outcome of stat on the cache
file, the outcome of reading and JSON-parsing it, whether a write would
fail, and the raw log files used for a rebuild. -/
structure CacheEnv where
  projectMtime : Int
  cacheStat : Option Int
  cacheRead : Option PStats
  writeFails : Bool
  dateOk : String → Bool
  files : List (String × List Line)

/-- Translation of the stats route body after the existence check: use the
snapshot when its stat succeeds, its time is at least the directory time
and its read parses, otherwise rebuild from the logs and attempt to write
the snapshot.  The boolean records whether a write was attempted. -/
def statsRoute (env : CacheEnv) : PStats × Bool :=
  let cachedResult : Option PStats :=
    match env.cacheStat with
    | some cm =>
      if env.projectMtime ≤ cm then env.cacheRead else none
    | none => none
  match cachedResult with
  | some s => (s, false)
  | none => (projectStats env.dateOk env.files, true)

/-! ## Derived line-level views used to state the claims -/

/-- The sidechain depth transition of one line, the projection of the
parser step to the depth counter. -/
def dstep (d : Int) (l : Line) : Int :=
  match l with
  | Line.record r =>
    if r.type == "conversation.summary" || r.type == "summary" then d
    else if r.type == "sidechain.start" then d + 1
    else if r.type == "sidechain.end" then max 0 (d - 1)
    else d
  | _ => d

/-- The sidechain depth counter after processing a line sequence. -/
def depthAfter (lines : List Line) : Int :=
  lines.foldl dstep 0

/-- The first user-typed record of a raw line sequence. -/
def firstUserRec (lines : List Line) : Option Rec :=
  lines.findSome? (fun l =>
    match l with
    | Line.record r => if r.type == "user" then some r else none
    | _ => none)

/-- The running last-message-timestamp transition of one line, the
projection of the parser step to the timestamp tracker. -/
def lastTsStep (acc : String) (l : Line) : String :=
  match l with
  | Line.record d =>
    if d.type == "user" || d.type == "assistant" || d.type == "system" then
      if d.timestamp == "" then acc else d.timestamp
    else acc
  | _ => acc

/-- The last message timestamp seen in a raw line sequence, starting from
the current time. -/
def lastTsFrom (now : String) (lines : List Line) : String :=
  lines.foldl lastTsStep now

/-- Whether a line is nonblank (survives the trim check). -/
def nonBlank : Line → Bool
  | Line.blank => false
  | _ => true

/-! ## Concrete data used in witnesses and counterexamples -/

/-- A user message record with string content. -/
def userMsgRec (u t : String) : Rec :=
  { type := "user", uuid := u,
    message := some { content := some (MContent.str t) } }

/-- A minimal summary record for example conversations. -/
def exSummaryRec : Rec :=
  { type := "summary", summary := "s" }

/-- Example conversation A: three messages matching the query cat, less
recently updated. -/
def convA3 : Conversation :=
  { id := "A", summary := exSummaryRec,
    messages := [userMsgRec "a1" "cat", userMsgRec "a2" "cat", userMsgRec "a3" "cat"],
    messageCount := 3, lastUpdated := "d" }

/-- Example conversation B: three messages matching the query cat, more
recently updated. -/
def convB3 : Conversation :=
  { id := "B", summary := exSummaryRec,
    messages := [userMsgRec "b1" "cat", userMsgRec "b2" "cat", userMsgRec "b3" "cat"],
    messageCount := 3, lastUpdated := "dd" }

/-- A concrete stand-in for the Date parse: the length of the timestamp
string, under which dd is more recent than d. -/
def lenTime : String → Int :=
  fun s => (s.data.length : Int)

/-- Example conversation whose only message text is beta starts before
alpha. -/
def convBeta : Conversation :=
  { id := "C", summary := exSummaryRec,
    messages := [userMsgRec "m1" "beta starts before alpha"],
    messageCount := 1, lastUpdated := "t" }

/-- The index entry built for the message of convBeta. -/
def betaEntry : IndexEntry :=
  { conversationId := "C", messageId := "m1",
    text := "beta starts before alpha",
    textLower := lowerS "beta starts before alpha", timestamp := "" }

/-- Example conversation whose only message text contains punctuation
surrounded by word characters. -/
def convPunct : Conversation :=
  { id := "P", summary := exSummaryRec,
    messages := [userMsgRec "p1" "a!!!b"],
    messageCount := 1, lastUpdated := "t" }

/-- An index entry whose text is category. -/
def catEntry1 : IndexEntry :=
  { conversationId := "x", messageId := "m", text := "category",
    textLower := "category", timestamp := "" }

/-- An index entry whose text is a cat sat. -/
def catEntry2 : IndexEntry :=
  { conversationId := "x", messageId := "m", text := "a cat sat",
    textLower := "a cat sat", timestamp := "" }

/-- A token-index entry for the text hello. -/
def simpleHello : SimpleEntry :=
  { conversationId := "c", messageId := "m", text := "hello",
    tokens := ["hello"], timestamp := "" }

/-- A sidechain-start record. -/
def scStart : Rec := { type := "sidechain.start" }

/-- A sidechain-end record. -/
def scEnd : Rec := { type := "sidechain.end" }

/-- A plain user record. -/
def exUser : Rec := { type := "user", uuid := "u1" }

/-- A plain assistant record. -/
def exAsst : Rec := { type := "assistant", uuid := "u2" }

/-- A line prefix with one sidechain start and two sidechain ends: the
second end is dangling. -/
def exPreC5 : List Line :=
  [Line.record scStart, Line.record scEnd, Line.record scEnd]

/-- A user record whose string content is longer than fifty characters. -/
def uLong : Rec :=
  userMsgRec "u1" "Please refactor the parser module for clarity and speed"

/-- The single-line log holding only uLong. -/
def exLinesC6 : List Line := [Line.record uLong]

/-- An assistant record carrying the timestamp T1. -/
def asstT1 : Rec := { type := "assistant", uuid := "a1", timestamp := "T1" }

/-- A user record whose content is two text blocks, hello and world. -/
def uBlocks : Rec :=
  { type := "user", uuid := "u3",
    message := some { content := some (MContent.blocks
      [ContentBlock.text "hello", ContentBlock.text "world"]) } }

/-- A cache environment whose snapshot is valid: snapshot time 5 is at
least the directory time 3 and the read succeeds. -/
def exEnv : CacheEnv :=
  { projectMtime := 3, cacheStat := some 5,
    cacheRead := some { totalMessages := 7 }, writeFails := false,
    dateOk := fun _ => true, files := [] }

/-! ## Character-level lemmas -/

/-- Lowercasing a character does not change whether it is whitespace. -/
theorem isWs_lowerC (c : Char) : isWs (lowerC c) = isWs c := by
  unfold lowerC
  split <;> rfl

/-- Lowercasing a character does not change whether it is a word character. -/
theorem isWordChar_lowerC (c : Char) : isWordChar (lowerC c) = isWordChar c := by
  unfold lowerC
  split <;> rfl

/-! ## Parser lemmas -/

/-- A line whose JSON parse throws leaves the parser state unchanged. -/
theorem pstep_invalid (s : PState) : pstep s Line.invalid = s := rfl

/-- The line loop distributes over list append. -/
theorem runLines_append (now : String) (l₁ l₂ : List Line) :
    runLines now (l₁ ++ l₂) = l₂.foldl pstep (runLines now l₁) := by
  unfold runLines
  exact List.foldl_append _ _ _ _

/-- The depth counter of the parser state is the fold of the depth
projection. -/
theorem foldl_pstep_depth (lines : List Line) :
    ∀ s : PState, (lines.foldl pstep s).sideChainDepth =
      lines.foldl dstep s.sideChainDepth := by
  induction lines with
  | nil => intro s; rfl
  | cons l ls ih =>
    intro s
    have hstep : (pstep s l).sideChainDepth = dstep s.sideChainDepth l := by
      cases l with
      | blank => rfl
      | invalid => rfl
      | record d =>
        simp only [pstep, dstep]
        split_ifs <;> rfl
    simp only [List.foldl_cons, ih (pstep s l), hstep]

/-- The depth transition preserves nonnegativity. -/
theorem dstep_nonneg (d : Int) (l : Line) (h : 0 ≤ d) : 0 ≤ dstep d l := by
  cases l with
  | blank => exact h
  | invalid => exact h
  | record r =>
    simp only [dstep]
    split_ifs
    · exact h
    · omega
    · exact le_max_left (0 : Int) _
    · exact h

/-- The depth counter never becomes negative. -/
theorem depthAfter_nonneg (lines : List Line) : 0 ≤ depthAfter lines := by
  unfold depthAfter
  have h : ∀ (ls : List Line) (d : Int), 0 ≤ d → 0 ≤ ls.foldl dstep d := by
    intro ls
    induction ls with
    | nil => intro d hd; exact hd
    | cons l ls ih => intro d hd; exact ih _ (dstep_nonneg d l hd)
  exact h lines 0 le_rfl

/-- Processing a user or assistant record appends one message whose
sidechain flag reflects whether the depth counter is positive at that
point. -/
theorem runLines_messages_append (now : String) (pre : List Line) (r : Rec)
    (h : r.type = "user" ∨ r.type = "assistant") :
    (runLines now (pre ++ [Line.record r])).messages =
      (runLines now pre).messages ++
        [{ r with isSidechain := decide (0 < depthAfter pre) }] := by
  rw [runLines_append]
  have hdepth : (runLines now pre).sideChainDepth = depthAfter pre := by
    unfold runLines depthAfter
    exact foldl_pstep_depth pre (initPState now)
  rcases h with h | h <;>
    simp [pstep, h, hdepth]

/-- C5: the sidechain depth counter is floored at zero, so it is never
negative even for unbalanced markers, and a user or assistant record is
tagged as a sidechain message exactly when the counter is positive at the
moment the record is processed. -/
theorem claim_C5 :
    (∀ lines : List Line, 0 ≤ depthAfter lines) ∧
    (∀ (now : String) (pre : List Line) (r : Rec),
      r.type = "user" ∨ r.type = "assistant" →
      (runLines now (pre ++ [Line.record r])).messages =
        (runLines now pre).messages ++
          [{ r with isSidechain := decide (0 < depthAfter pre) }]) :=
  ⟨depthAfter_nonneg, runLines_messages_append⟩

/-- Witness for C5: after a start and two ends (one dangling) the depth is
back at zero, stays nonnegative, and the next user message is not tagged
as a sidechain message. -/
theorem claim_C5_witness :
    0 ≤ depthAfter exPreC5 ∧
    depthAfter exPreC5 = 0 ∧
    (runLines "N" (exPreC5 ++ [Line.record exUser])).messages =
      (runLines "N" exPreC5).messages ++
        [{ exUser with isSidechain := decide (0 < depthAfter exPreC5) }] :=
  ⟨claim_C5.1 exPreC5, by decide, claim_C5.2 "N" exPreC5 exUser (Or.inl rfl)⟩

/-- C8: a line whose parse fails is skipped without affecting the parser
state, and a log with one invalid line between two valid message records
yields exactly the two valid messages in their original order. -/
theorem claim_C8 :
    (∀ (now : String) (pre post : List Line),
      runLines now (pre ++ Line.invalid :: post) = runLines now (pre ++ post)) ∧
    (∀ (cid now : String) (r₁ r₂ : Rec),
      r₁.type = "user" ∨ r₁.type = "assistant" →
      r₂.type = "user" ∨ r₂.type = "assistant" →
      (parseConversationStream cid now
          [Line.record r₁, Line.invalid, Line.record r₂]).messages =
        [{ r₁ with isSidechain := false }, { r₂ with isSidechain := false }]) := by
  constructor
  · intro now pre post
    unfold runLines
    rw [List.foldl_append, List.foldl_append, List.foldl_cons, pstep_invalid]
  · intro cid now r₁ r₂ h₁ h₂
    have hmsg :
        (runLines now [Line.record r₁, Line.invalid, Line.record r₂]).messages =
          [{ r₁ with isSidechain := false }, { r₂ with isSidechain := false }] := by
      rcases h₁ with h₁ | h₁ <;> rcases h₂ with h₂ | h₂ <;>
        simp [runLines, pstep, initPState, h₁, h₂]
    unfold parseConversationStream
    exact hmsg

/-- Witness for C8: a concrete log with an invalid middle line parses to
exactly the two valid messages. -/
theorem claim_C8_witness :
    (parseConversationStream "c" "N"
        [Line.record exUser, Line.invalid, Line.record exAsst]).messages =
      [{ exUser with isSidechain := false }, { exAsst with isSidechain := false }] :=
  claim_C8.2 "c" "N" exUser exAsst (Or.inl rfl) (Or.inr rfl)

/-- C9: the persisted snapshot is returned exactly when its stat succeeds,
its recorded time is at least the directory modification time and its read
parses; in every other case the statistics are rebuilt from the logs, with
a write attempted, and a failing write cannot change the returned value. -/
theorem claim_C9 (env : CacheEnv) :
    (∀ (cm : Int) (s : PStats), env.cacheStat = some cm →
      env.projectMtime ≤ cm → env.cacheRead = some s →
      statsRoute env = (s, false)) ∧
    (env.cacheRead = none →
      statsRoute env = (projectStats env.dateOk env.files, true)) ∧
    (∀ cm : Int, env.cacheStat = some cm → cm < env.projectMtime →
      statsRoute env = (projectStats env.dateOk env.files, true)) ∧
    (env.cacheStat = none →
      statsRoute env = (projectStats env.dateOk env.files, true)) ∧
    (∀ b : Bool, (statsRoute { env with writeFails := b }).1 = (statsRoute env).1) := by
  refine ⟨?_, ?_, ?_, ?_, ?_⟩
  · intro cm s hstat hle hread
    simp [statsRoute, hstat, hread, if_pos hle]
  · intro hread
    unfold statsRoute
    cases hstat : env.cacheStat with
    | none => simp
    | some cm => simp [hread]
  · intro cm hstat hlt
    have : ¬ env.projectMtime ≤ cm := not_le.mpr hlt
    simp [statsRoute, hstat, this]
  · intro hstat
    simp [statsRoute, hstat]
  · intro b
    rfl

/-- Witness for C9: with directory time 3, snapshot time 5 and a readable
snapshot, the snapshot contents are returned without a rebuild. -/
theorem claim_C9_witness :
    statsRoute exEnv = ({ totalMessages := 7 }, false) :=
  (claim_C9 exEnv).1 5 { totalMessages := 7 } rfl (by decide) rfl

/-- C10: search does not modify the built index - the state-transformer
form returns the index unchanged - and a second invocation on the
resulting state returns the same result sequence. -/
theorem claim_C10 (idx : FastProjectSearchIndex) (query : String)
    (mode : SMode) (time : String → Int) :
    (idx.searchState query mode time).2.entries = idx.entries ∧
    (idx.searchState query mode time).2.conversationMap = idx.conversationMap ∧
    ((idx.searchState query mode time).2.searchState query mode time).1 =
      (idx.searchState query mode time).1 :=
  ⟨rfl, rfl, rfl⟩

/-! ## Statistics aggregation lemmas -/

/-- Block counting never touches the conversation counter. -/
theorem blockCount_tc (t : PStats) (b : ContentBlock) :
    (blockCount t b).totalConversations = t.totalConversations := by
  cases b <;> rfl

/-- Folding block counting never touches the conversation counter. -/
theorem foldl_blockCount_tc (bs : List ContentBlock) :
    ∀ t : PStats, (bs.foldl blockCount t).totalConversations = t.totalConversations := by
  induction bs with
  | nil => intro t; rfl
  | cons b bs ih =>
    intro t
    rw [List.foldl_cons, ih (blockCount t b), blockCount_tc]

/-- Per-record counting never touches the conversation counter. -/
theorem statRecord_tc (dateOk : String → Bool) (s : PStats) (d : Rec) :
    (statRecord dateOk s d).totalConversations = s.totalConversations := by
  unfold statRecord
  split_ifs <;> try rfl
  all_goals
    rcases hm : d.message with _ | im
    case _ => simp [hm]
    case _ =>
      rcases hc : im.content with _ | c
      · simp [hm, hc]
      · rcases c with t | bs
        · simp [hm, hc]
        · simp [hm, hc, foldl_blockCount_tc]

/-- Per-line counting never touches the conversation counter. -/
theorem statLine_tc (dateOk : String → Bool) (acc : PStats × Nat × Bool) (l : Line) :
    ((statLine dateOk acc l).1).totalConversations = acc.1.totalConversations := by
  cases l with
  | blank => rfl
  | invalid => rfl
  | record d => exact statRecord_tc dateOk acc.1 d

/-- The hasContent flag after one line is the previous flag or the
nonblankness of the line. -/
theorem statLine_flag (dateOk : String → Bool) (acc : PStats × Nat × Bool) (l : Line) :
    (statLine dateOk acc l).2.2 = (acc.2.2 || nonBlank l) := by
  cases l with
  | blank => simp [statLine, nonBlank]
  | invalid => simp [statLine, nonBlank]
  | record d => simp [statLine, nonBlank]

/-- The line fold never touches the conversation counter. -/
theorem foldl_statLine_tc (dateOk : String → Bool) (lines : List Line) :
    ∀ acc : PStats × Nat × Bool,
      ((lines.foldl (statLine dateOk) acc).1).totalConversations =
        acc.1.totalConversations := by
  induction lines with
  | nil => intro acc; rfl
  | cons l ls ih =>
    intro acc
    rw [List.foldl_cons, ih (statLine dateOk acc l), statLine_tc]

/-- The hasContent flag after the line fold records whether any line was
nonblank. -/
theorem foldl_statLine_flag (dateOk : String → Bool) (lines : List Line) :
    ∀ acc : PStats × Nat × Bool,
      (lines.foldl (statLine dateOk) acc).2.2 =
        (acc.2.2 || lines.any nonBlank) := by
  induction lines with
  | nil => intro acc; simp
  | cons l ls ih =>
    intro acc
    rw [List.foldl_cons, ih (statLine dateOk acc l), statLine_flag]
    simp [Bool.or_assoc]

/-- The end-of-file bookkeeping keeps the counter when content was seen
and takes it back down otherwise. -/
theorem statFinish_tc (fid : String) (r : PStats × Nat × Bool) :
    (statFinish fid r).totalConversations =
      if r.2.2 then r.1.totalConversations else r.1.totalConversations - 1 := by
  rcases r with ⟨s, mc, b⟩
  cases b <;> simp [statFinish] <;> split_ifs <;> rfl

/-- One file raises the conversation counter exactly when it has a
nonblank line. -/
theorem statFile_tc (dateOk : String → Bool) (s0 : PStats) (fid : String)
    (lines : List Line) :
    (statFile dateOk s0 fid lines).totalConversations =
      if lines.any nonBlank then s0.totalConversations + 1
      else s0.totalConversations := by
  unfold statFile
  rw [statFinish_tc, foldl_statLine_tc, foldl_statLine_flag]
  simp only [Bool.false_or]
  cases h : lines.any nonBlank <;> simp

/-- The file fold adds one per file with a nonblank line. -/
theorem foldl_statFile_tc (dateOk : String → Bool)
    (files : List (String × List Line)) :
    ∀ s : PStats,
      ((files.foldl (fun s f => statFile dateOk s f.1 f.2) s)).totalConversations =
        s.totalConversations +
          (files.filter (fun f => f.2.any nonBlank)).length := by
  induction files with
  | nil => intro s; simp
  | cons f fs ih =>
    intro s
    rw [List.foldl_cons, ih (statFile dateOk s f.1 f.2), statFile_tc]
    cases h : f.2.any nonBlank <;> simp [List.filter_cons, h] <;> omega

/-- C7 amended: the conversation counter counts exactly the files with at
least one nonblank line; blank-only files contribute zero, but a file of
unparsable nonblank lines still counts. -/
theorem claim_C7 (dateOk : String → Bool) (files : List (String × List Line)) :
    (projectStats dateOk files).totalConversations =
      (files.filter (fun f => f.2.any nonBlank)).length := by
  unfold projectStats
  rw [foldl_statFile_tc]
  have h0 : ({} : PStats).totalConversations = 0 := rfl
  rw [h0, Nat.zero_add]

/-- Counterexample to C7 as stated: a file whose single line is nonblank
but unparsable still contributes one to the conversation count, whereas
the claim requires zero for a file with no valid content line. -/
theorem claim_C7_counterexample :
    (projectStats (fun _ => true) [("f", [Line.invalid])]).totalConversations = 1 := by
  rfl

/-! ## Summary synthesis lemmas -/

/-- When no summary-typed record occurs, the parser never records a
summary. -/
theorem runLines_summary_none (now : String) (lines : List Line)
    (h : ∀ r : Rec, Line.record r ∈ lines →
      (r.type == "conversation.summary" || r.type == "summary") = false) :
    (runLines now lines).summary = none := by
  unfold runLines
  have main : ∀ (ls : List Line) (s : PState),
      (∀ r : Rec, Line.record r ∈ ls →
        (r.type == "conversation.summary" || r.type == "summary") = false) →
      s.summary = none → (ls.foldl pstep s).summary = none := by
    intro ls
    induction ls with
    | nil => intro s _ hs; exact hs
    | cons l ls ih =>
      intro s hl hs
      refine ih (pstep s l) (fun r hr => hl r (List.mem_cons_of_mem _ hr)) ?_
      cases l with
      | blank => exact hs
      | invalid => exact hs
      | record d =>
        have hd := hl d (List.mem_cons_self _ _)
        simp only [pstep, hd, Bool.false_eq_true, if_false]
        split_ifs <;> simpa using hs
  exact main lines (initPState now) h rfl

/-- The running last-message timestamp of the parser state is the fold of
the timestamp projection. -/
theorem foldl_pstep_lastTs (lines : List Line) :
    ∀ s : PState, (lines.foldl pstep s).lastMessageTimestamp =
      lines.foldl lastTsStep s.lastMessageTimestamp := by
  induction lines with
  | nil => intro s; rfl
  | cons l ls ih =>
    intro s
    have hstep : (pstep s l).lastMessageTimestamp =
        lastTsStep s.lastMessageTimestamp l := by
      cases l with
      | blank => rfl
      | invalid => rfl
      | record d =>
        simp only [pstep, lastTsStep]
        split_ifs <;> simp_all <;>
          rcases ‹d.type = "conversation.summary" ∨ d.type = "summary"› with h | h <;>
            simp_all
    simp only [List.foldl_cons, ih (pstep s l), hstep]

/-- The first user message found among the parsed messages carries the
message payload and timestamp of the first user-typed raw record. -/
theorem foldl_pstep_findUser (lines : List Line) :
    ∀ s : PState,
      (((lines.foldl pstep s).messages.find? (fun m => m.type == "user")).map
          (fun m => (m.message, m.timestamp))) =
        ((s.messages.find? (fun m => m.type == "user")).map
          (fun m => (m.message, m.timestamp))).or
          ((firstUserRec lines).map (fun r => (r.message, r.timestamp))) := by
  induction lines with
  | nil =>
    intro s
    simp [firstUserRec, Option.or_none]
  | cons l ls ih =>
    intro s
    rw [List.foldl_cons, ih (pstep s l)]
    cases l with
    | blank =>
      simp only [firstUserRec, List.findSome?_cons]
      rfl
    | invalid =>
      simp only [firstUserRec, List.findSome?_cons]
      rfl
    | record d =>
      by_cases hu : (d.type == "user") = true
      · have hd : d.type = "user" := by simpa using hu
        have hmsgs : (pstep s (Line.record d)).messages =
            s.messages ++ [{ d with isSidechain := decide (0 < s.sideChainDepth) }] := by
          simp [pstep, hd]
        have hfu : firstUserRec (Line.record d :: ls) = some d := by
          simp [firstUserRec, List.findSome?_cons, hd]
        rw [hmsgs, hfu, List.find?_append]
        have hfind : (List.find? (fun m => m.type == "user")
            [{ d with isSidechain := decide (0 < s.sideChainDepth) }]) =
            some { d with isSidechain := decide (0 < s.sideChainDepth) } := by
          simp [List.find?, hd]
        rw [hfind, Option.map_or', Option.or_assoc]
        rfl
      · have hu' : (d.type == "user") = false := by simpa using hu
        have hne : ¬ d.type = "user" := by simpa using hu
        have hfu : firstUserRec (Line.record d :: ls) = firstUserRec ls := by
          simp [firstUserRec, List.findSome?_cons, hne]
        rw [hfu]
        have hmF : ((pstep s (Line.record d)).messages.find?
              (fun m => m.type == "user")).map (fun m => (m.message, m.timestamp)) =
            (s.messages.find? (fun m => m.type == "user")).map
              (fun m => (m.message, m.timestamp)) := by
          simp only [pstep]
          split_ifs <;> try rfl
          all_goals
            rw [List.find?_append]
            simp [List.find?, hu', Option.or_none]
        rw [hmF]

/-- The synthesized summary text depends only on the message payload of
the first user message. -/
theorem synthText_proj (cid : String) (fu₁ fu₂ : Option Rec)
    (h : fu₁.map (fun m => m.message) = fu₂.map (fun m => m.message)) :
    synthText cid fu₁ = synthText cid fu₂ := by
  cases fu₁ with
  | none =>
    cases fu₂ with
    | none => rfl
    | some m₂ => simp at h
  | some m₁ =>
    cases fu₂ with
    | none => simp at h
    | some m₂ =>
      simp only [Option.map_some', Option.some.injEq] at h
      simp only [synthText, h]

/-- The synthesized summary timestamp depends only on the timestamp of the
first user message and the running timestamp. -/
theorem synthTs_proj (lastTs : String) (fu₁ fu₂ : Option Rec)
    (h : fu₁.map (fun m => m.timestamp) = fu₂.map (fun m => m.timestamp)) :
    synthTs fu₁ lastTs = synthTs fu₂ lastTs := by
  cases fu₁ with
  | none =>
    cases fu₂ with
    | none => rfl
    | some m₂ => simp at h
  | some m₁ =>
    cases fu₂ with
    | none => simp at h
    | some m₂ =>
      simp only [Option.map_some', Option.some.injEq] at h
      simp only [synthTs, h]

/-- C6 amended: for a log with no summary-typed record the parser
synthesizes a summary record whose text is computed by synthText from the
first user record (trimmed string content, or the first text-typed block,
ellipsis-truncated at fifty characters, with a file-name fallback) and
whose timestamp is the first user record timestamp when present, otherwise
the last message timestamp seen, otherwise the current time. -/
theorem claim_C6 (cid now : String) (lines : List Line)
    (h : ∀ r : Rec, Line.record r ∈ lines →
      (r.type == "conversation.summary" || r.type == "summary") = false) :
    (parseConversationStream cid now lines).summary =
      { type := "conversation.summary",
        summary := synthText cid (firstUserRec lines),
        timestamp := synthTs (firstUserRec lines) (lastTsFrom now lines) } := by
  have hsum : (runLines now lines).summary = none := runLines_summary_none now lines h
  have hpair : (((runLines now lines).messages.find? (fun m => m.type == "user")).map
      (fun m => (m.message, m.timestamp))) =
      (firstUserRec lines).map (fun r => (r.message, r.timestamp)) := by
    have hmain := foldl_pstep_findUser lines (initPState now)
    simpa [runLines, initPState] using hmain
  have hmsgproj : ((runLines now lines).messages.find? (fun m => m.type == "user")).map
      (fun m => m.message) = (firstUserRec lines).map (fun r => r.message) := by
    have hcon := congrArg (fun o => o.map Prod.fst) hpair
    simpa [Option.map_map, Function.comp] using hcon
  have htsproj : ((runLines now lines).messages.find? (fun m => m.type == "user")).map
      (fun m => m.timestamp) = (firstUserRec lines).map (fun r => r.timestamp) := by
    have hcon := congrArg (fun o => o.map Prod.snd) hpair
    simpa [Option.map_map, Function.comp] using hcon
  have hlast : (runLines now lines).lastMessageTimestamp = lastTsFrom now lines := by
    have hmain := foldl_pstep_lastTs lines (initPState now)
    simpa [runLines, initPState, lastTsFrom] using hmain
  have htext := synthText_proj cid _ _ hmsgproj
  have hts := synthTs_proj (lastTsFrom now lines) _ _ htsproj
  simp only [parseConversationStream, hsum]
  rw [hlast, htext, hts]

/-- Counterexample to C6 as stated: with no summary record and no user
message but one assistant message carrying timestamp T1, the synthesized
summary carries T1, not the current time NOW as the claim requires; and
for a first user message made of the two text blocks hello and world,
whose extracted text is hello world, the synthesized text is only the
first block hello. -/
theorem claim_C6_counterexample :
    (parseConversationStream "f" "NOW" [Line.record asstT1]).summary.timestamp = "T1" ∧
    ("T1" : String) ≠ "NOW" ∧
    extractSearchableText uBlocks = "hello world" ∧
    (parseConversationStream "g" "NOW" [Line.record uBlocks]).summary.summary = "hello" ∧
    ("hello" : String) ≠ "hello world" :=
  ⟨rfl, by decide, rfl, rfl, by decide⟩

/-- Witness for C6: a log whose only record is a user message longer than
fifty characters synthesizes a summary, and the synthesized text is the
fifty-character truncation with an ellipsis. -/
theorem claim_C6_witness :
    (parseConversationStream "file1" "NOW" exLinesC6).summary =
      { type := "conversation.summary",
        summary := synthText "file1" (firstUserRec exLinesC6),
        timestamp := synthTs (firstUserRec exLinesC6) (lastTsFrom "NOW" exLinesC6) } ∧
    synthText "file1" (firstUserRec exLinesC6) =
      "Please refactor the parser module for clarity and ..." := by
  constructor
  · refine claim_C6 "file1" "NOW" exLinesC6 ?_
    intro r hr
    simp only [exLinesC6, List.mem_singleton, Line.record.injEq] at hr
    subst hr
    decide
  · rfl

/-! ## Tokenization lemmas -/

/-- Dropping a satisfied prefix yields nil exactly when every element
satisfies the predicate. -/
theorem dropWhile_nil_iff (p : Char → Bool) (l : List Char) :
    l.dropWhile p = [] ↔ l.all p = true := by
  induction l with
  | nil => simp
  | cons c cs ih =>
    by_cases h : p c = true
    · simp [List.dropWhile_cons, h, ih]
    · simp [List.dropWhile_cons, h]

/-- Dropping a satisfied prefix does not change whether everything
satisfies the predicate. -/
theorem all_dropWhile (p : Char → Bool) (l : List Char) :
    (l.dropWhile p).all p = l.all p := by
  induction l with
  | nil => rfl
  | cons c cs ih =>
    by_cases h : p c = true
    · simp [List.dropWhile_cons, h, ih]
    · simp [List.dropWhile_cons, h]

/-- Trimming yields the empty list exactly when the input is all
whitespace. -/
theorem trimL_eq_nil_iff (l : List Char) :
    trimL l = [] ↔ l.all isWs = true := by
  unfold trimL
  rw [List.reverse_eq_nil_iff, dropWhile_nil_iff, List.all_reverse, all_dropWhile]

/-- The whitespace splitter yields no token exactly when the input is all
whitespace (given an empty accumulator). -/
theorem splitWsAux_eq_nil_iff (l : List Char) :
    ∀ acc, splitWsAux l acc = [] ↔ (acc.isEmpty = true ∧ l.all isWs = true) := by
  induction l with
  | nil =>
    intro acc
    cases acc <;> simp [splitWsAux]
  | cons c cs ih =>
    intro acc
    by_cases h : isWs c = true
    · cases acc with
      | nil => simp [splitWsAux, h, ih]
      | cons a as => simp [splitWsAux, h]
    · have h' : isWs c = false := by simpa using h
      simp [splitWsAux, h', ih]

/-- The whitespace splitter of a string with a non-whitespace character is
nonempty. -/
theorem splitWs_eq_nil_iff (l : List Char) :
    splitWs l = [] ↔ l.all isWs = true := by
  unfold splitWs
  rw [splitWsAux_eq_nil_iff]
  simp

/-- Lowercasing preserves the all-whitespace property. -/
theorem all_isWs_lowerL (l : List Char) :
    (lowerL l).all isWs = l.all isWs := by
  unfold lowerL
  rw [List.all_map]
  have hfun : (isWs ∘ lowerC) = isWs := funext isWs_lowerC
  rw [hfun]

/-- The whitespace splitter commutes with lowercasing. -/
theorem splitWsAux_lower (l : List Char) :
    ∀ acc, splitWsAux (lowerL l) (lowerL acc) = (splitWsAux l acc).map lowerL := by
  induction l with
  | nil =>
    intro acc
    cases acc <;> simp [splitWsAux, lowerL]
  | cons c cs ih =>
    intro acc
    simp only [lowerL, List.map_cons, splitWsAux, isWs_lowerC]
    by_cases h : isWs c = true
    · cases acc with
      | nil =>
        have h0 := ih []
        simp only [lowerL, List.map_nil] at h0
        simp [h, h0]
      | cons a as =>
        have h0 := ih []
        simp only [lowerL, List.map_nil] at h0
        simp [h, h0, lowerL]
    · have h' : isWs c = false := by simpa using h
      have h0 := ih (c :: acc)
      simp only [lowerL, List.map_cons] at h0
      simp [h', h0]

/-- The whitespace tokenization commutes with lowercasing. -/
theorem splitWs_lower (l : List Char) :
    splitWs (lowerL l) = (splitWs l).map lowerL := by
  have h := splitWsAux_lower l []
  simpa [splitWs, lowerL] using h

/-- Trimming commutes with lowercasing. -/
theorem trimL_lower (l : List Char) :
    trimL (lowerL l) = lowerL (trimL l) := by
  unfold trimL lowerL
  have hfun : (isWs ∘ lowerC) = isWs := funext isWs_lowerC
  rw [List.dropWhile_map, hfun, ← List.map_reverse, List.dropWhile_map, hfun,
    ← List.map_reverse]

/-- The trimmed string is nonempty exactly when some character is not
whitespace. -/
theorem trimS_ne_empty_iff (q : String) :
    trimS q ≠ "" ↔ ¬ (q.data.all isWs = true) := by
  constructor
  · intro h hall
    exact h (String.ext ((trimL_eq_nil_iff q.data).mpr hall))
  · intro h hq
    exact h ((trimL_eq_nil_iff q.data).mp (congrArg String.data hq))

/-- Word runs vanish on inputs with no word character. -/
theorem wordRuns_eq_nil (l : List Char) (h : ∀ c ∈ l, isWordChar c = false) :
    wordRuns l = [] := by
  unfold wordRuns
  induction l with
  | nil => rfl
  | cons c cs ih =>
    have hc := h c (List.mem_cons_self _ _)
    simp only [wordRunsAux, hc, Bool.false_eq_true, if_false, List.isEmpty_nil, if_true]
    exact ih (fun x hx => h x (List.mem_cons_of_mem _ hx))

/-! ## Index construction lemmas -/

/-- Every entry of a built index carries the precomputed lowercase form of
its text. -/
theorem buildIndex_textLower (convs : List Conversation) (e : IndexEntry)
    (he : e ∈ (buildIndex convs).entries) : e.textLower = lowerS e.text := by
  simp only [buildIndex, List.mem_flatten, List.mem_map] at he
  obtain ⟨es, ⟨c, hc, hce⟩, hee⟩ := he
  subst hce
  simp only [entriesOfConversation, List.mem_filterMap] at hee
  obtain ⟨m, hm, hcond⟩ := hee
  split_ifs at hcond with ht
  simp only [Option.some.injEq] at hcond
  subst hcond
  rfl

/-- The character list of a constructed string. -/
theorem data_mk (l : List Char) : (String.mk l).data = l := rfl

/-- C2: in regex (partial) mode, an entry of a built index matches exactly
when every nonempty whitespace-separated token of the query occurs as a
case-insensitive substring of the entry text, with no constraint on order
or contiguity. -/
theorem claim_C2 (convs : List Conversation) (e : IndexEntry)
    (he : e ∈ (buildIndex convs).entries) (q : String) (hq : trimS q ≠ "") :
    fastEntryMatches q SMode.regex e = true ↔
      ∀ t ∈ splitWsS q, ciContains e.text t = true := by
  have htl : e.textLower = lowerS e.text := buildIndex_textLower convs e he
  have hg : (trimS q == "") = false := beq_eq_false_iff_ne.mpr hq
  have hsplit : splitWs (lowerL q.data) ≠ [] := by
    intro hnil
    rw [splitWs_eq_nil_iff, all_isWs_lowerL] at hnil
    exact (trimS_ne_empty_iff q).mp hq hnil
  have hterms : (fastQueryTerms q SMode.regex).isEmpty = false := by
    simp only [fastQueryTerms, splitWsS, lowerS, data_mk]
    cases h : splitWs (lowerL q.data) with
    | nil => exact absurd h hsplit
    | cons a as => simp
  simp only [fastEntryMatches, hg, Bool.false_eq_true, if_false, hterms,
    entryMatchesFast]
  rw [List.all_eq_true]
  constructor
  · intro h t ht
    rcases List.mem_map.mp ht with ⟨tok, htok, rfl⟩
    have hmem : (⟨lowerL tok⟩ : String) ∈ fastQueryTerms q SMode.regex := by
      simp only [fastQueryTerms, splitWsS, lowerS, data_mk]
      rw [splitWs_lower]
      exact List.mem_map.mpr ⟨lowerL tok, List.mem_map.mpr ⟨tok, htok, rfl⟩, rfl⟩
    have hc := h _ hmem
    simpa [ciContains, htl, lowerS, data_mk] using hc
  · intro h t ht
    simp only [fastQueryTerms, splitWsS, lowerS, data_mk] at ht
    rw [splitWs_lower] at ht
    rcases List.mem_map.mp ht with ⟨tokl, htokl, rfl⟩
    rcases List.mem_map.mp htokl with ⟨tok, htok, rfl⟩
    have hc := h ⟨tok⟩ (List.mem_map.mpr ⟨tok, htok, rfl⟩)
    simpa [ciContains, htl, lowerS, data_mk] using hc

/-- Witness for C2: the query alpha beta matches the entry whose text is
beta starts before alpha, although the tokens occur out of order. -/
theorem claim_C2_witness :
    fastEntryMatches "alpha beta" SMode.regex betaEntry = true := by
  have hmem : betaEntry ∈ (buildIndex [convBeta]).entries := by decide
  exact (claim_C2 [convBeta] betaEntry hmem "alpha beta" (by decide)).mpr (by decide)

/-- C3 amended: a punctuation-only query (nonempty after trimming, with no
word character) still yields surviving query terms in the fast index in
both modes, so its result need not be empty; in the token-based index no
token survives the filter, and as a consequence every entry matches
instead of none. -/
theorem claim_C3 (q : String) (h1 : trimS q ≠ "")
    (h2 : ∀ c ∈ q.data, isWordChar c = false) :
    fastQueryTerms q SMode.exact ≠ [] ∧
    fastQueryTerms q SMode.regex ≠ [] ∧
    tokenize q = [] ∧
    ∀ e : SimpleEntry, simpleEntryMatches q e = true := by
  have hg : (trimS q == "") = false := beq_eq_false_iff_ne.mpr h1
  have hsplit : splitWs (lowerL q.data) ≠ [] := by
    intro hnil
    rw [splitWs_eq_nil_iff, all_isWs_lowerL] at hnil
    exact (trimS_ne_empty_iff q).mp h1 hnil
  have htok : tokenize q = [] := by
    unfold tokenize
    rw [wordRuns_eq_nil]
    · rfl
    · intro c hc
      rcases List.mem_map.mp hc with ⟨c0, hc0, rfl⟩
      rw [isWordChar_lowerC]
      exact h2 c0 hc0
  refine ⟨?_, ?_, htok, ?_⟩
  · simp [fastQueryTerms]
  · simp only [fastQueryTerms, splitWsS, lowerS, data_mk]
    intro hnil
    exact hsplit (List.map_eq_nil_iff.mp hnil)
  · intro e
    simp [simpleEntryMatches, hg, htok]

/-- Counterexample to C3 as stated: in the fast index the punctuation-only
query of three exclamation marks returns a nonempty result in regex mode,
because the punctuation survives whitespace splitting and matches as a
substring. -/
theorem claim_C3_counterexample :
    (buildIndex [convPunct]).search "!!!" SMode.regex (fun _ => 0) ≠ [] := by
  decide

/-- Witness for C3: at the punctuation-only query of three exclamation
marks, no token survives the token-based filter and a concrete entry
matches. -/
theorem claim_C3_witness :
    tokenize "!!!" = [] ∧ simpleEntryMatches "!!!" simpleHello = true := by
  have h := claim_C3 "!!!" (by decide) (by decide)
  exact ⟨h.2.2.1, h.2.2.2 simpleHello⟩

/-- C4: search results are sorted by match count descending with ties
ordered by the parsed lastUpdated time descending, under every
interpretation of the timestamp parse; concretely, two conversations with
three matches each come back most recent first. -/
theorem claim_C4 :
    (∀ (idx : FastProjectSearchIndex) (q : String) (mode : SMode)
      (time : String → Int),
      List.Sorted (resLE time) (idx.search q mode time)) ∧
    ((buildIndex [convA3, convB3]).search "cat" SMode.exact lenTime).map
        (fun r => r.conversation.id) = ["B", "A"] := by
  constructor
  · intro idx q mode time
    haveI : IsTotal SearchResult (resLE time) := ⟨by
      intro a b
      unfold resLE
      omega⟩
    haveI : IsTrans SearchResult (resLE time) := ⟨by
      intro a b c hab hbc
      unfold resLE at hab hbc ⊢
      omega⟩
    simp only [FastProjectSearchIndex.search]
    split_ifs
    · exact List.sorted_nil
    · exact List.sorted_nil
    · exact List.sorted_insertionSort _ _
  · decide

/-! ## Word-boundary matching lemmas -/

/-- Behaviour of lastO on the empty prefix. -/
theorem lastO_nil (prev : Option Char) : lastO prev [] = prev := rfl

/-- Behaviour of lastO on a nonempty prefix extended on the left. -/
theorem lastO_cons (prev : Option Char) (c : Char) (pre : List Char) :
    lastO prev (c :: pre) = lastO (some c) pre := by
  cases pre with
  | nil => rfl
  | cons d ds =>
    unfold lastO
    rw [List.getLast?_cons_cons]
    cases h : (d :: ds).getLast? with
    | none => simp at h
    | some x => rfl

/-- On the empty previous character, lastO is the last character of the
prefix. -/
theorem lastO_none (pre : List Char) : lastO none pre = pre.getLast? := by
  unfold lastO
  cases h : pre.getLast? <;> rfl

/-- Lowercasing distributes over cons. -/
theorem lowerL_cons (c : Char) (l : List Char) :
    lowerL (c :: l) = lowerC c :: lowerL l := rfl

/-- The case-insensitive prefix strip succeeds exactly when the text
starts with a block whose lowercase form is the pattern. -/
theorem stripCI_iff (pat : List Char) :
    ∀ (text rest : List Char),
      stripCI pat text = some rest ↔
        ∃ mid, text = mid ++ rest ∧ lowerL mid = pat := by
  induction pat with
  | nil =>
    intro text rest
    simp only [stripCI, Option.some.injEq]
    constructor
    · rintro rfl
      exact ⟨[], rfl, rfl⟩
    · rintro ⟨mid, htext, hmid⟩
      have hmn : mid = [] := by
        cases mid with
        | nil => rfl
        | cons a as => simp [lowerL] at hmid
      subst hmn
      simpa using htext
  | cons p ps ih =>
    intro text rest
    cases text with
    | nil =>
      simp only [stripCI]
      constructor
      · intro h
        exact absurd h (by simp)
      · rintro ⟨mid, htext, hmid⟩
        have hmn : mid = [] := (List.append_eq_nil.mp htext.symm).1
        subst hmn
        simp [lowerL] at hmid
    | cons t ts =>
      simp only [stripCI]
      by_cases hct : (lowerC t == p) = true
      · have hc : lowerC t = p := by simpa using hct
        rw [if_pos hct, ih ts rest]
        constructor
        · rintro ⟨mid, rfl, hmid⟩
          exact ⟨t :: mid, rfl, by rw [lowerL_cons, hc, hmid]⟩
        · rintro ⟨mid, htext, hmid⟩
          cases mid with
          | nil => simp [lowerL] at hmid
          | cons m ms =>
            simp only [List.cons_append, List.cons.injEq] at htext
            obtain ⟨hm, hts⟩ := htext
            subst hm
            simp only [lowerL, List.map_cons, List.cons.injEq] at hmid
            exact ⟨ms, hts, hmid.2⟩
      · rw [if_neg hct]
        constructor
        · intro h
          exact absurd h (by simp)
        · rintro ⟨mid, htext, hmid⟩
          cases mid with
          | nil => simp [lowerL] at hmid
          | cons m ms =>
            simp only [List.cons_append, List.cons.injEq] at htext
            simp only [lowerL, List.map_cons, List.cons.injEq] at hmid
            exact absurd (by rw [htext.1, hmid.1]; simp : (lowerC t == p) = true) hct

/-- The single-position word-boundary test succeeds exactly when the text
splits as a case-insensitive copy of the pattern followed by a remainder,
with a word boundary on each side. -/
theorem matchHere_iff (pat : List Char) (hp : pat ≠ []) (prev : Option Char)
    (text : List Char) :
    matchHere pat prev text = true ↔
      ∃ mid post, text = mid ++ post ∧ lowerL mid = pat ∧
        (wordAtO prev != wordAtO mid.head?) = true ∧
        (wordAtO mid.getLast? != wordAtO post.head?) = true := by
  unfold matchHere
  cases hst : stripCI pat text with
  | none =>
    simp only [Bool.false_eq_true, false_iff]
    rintro ⟨mid, post, htext, hmid, _, _⟩
    have hsome : stripCI pat text = some post :=
      (stripCI_iff pat text post).mpr ⟨mid, htext, hmid⟩
    rw [hst] at hsome
    exact Option.noConfusion hsome
  | some rest =>
    obtain ⟨mid0, htext0, hmid0⟩ := (stripCI_iff pat text rest).mp hst
    have hlen : mid0.length = pat.length := by
      rw [← hmid0]
      simp [lowerL]
    have hmid0ne : mid0 ≠ [] := by
      intro h
      apply hp
      rw [← hmid0, h]
      rfl
    have htake : text.take pat.length = mid0 := by
      rw [htext0]
      exact List.take_left' hlen
    have hhead : text.head? = mid0.head? := by
      rw [htext0]
      cases mid0 with
      | nil => exact absurd rfl hmid0ne
      | cons m ms => rfl
    rw [htake, hhead, Bool.and_eq_true]
    constructor
    · rintro ⟨hb1, hb2⟩
      exact ⟨mid0, rest, htext0, hmid0, hb1, hb2⟩
    · rintro ⟨mid, post, htext, hmid, hb1, hb2⟩
      have hsome : stripCI pat text = some post :=
        (stripCI_iff pat text post).mpr ⟨mid, htext, hmid⟩
      rw [hst] at hsome
      have hpr : rest = post := by simpa using hsome
      subst hpr
      have hmideq : mid = mid0 := by
        have hcat : mid ++ rest = mid0 ++ rest := by rw [← htext, ← htext0]
        exact List.append_cancel_right hcat
      subst hmideq
      exact ⟨hb1, hb2⟩

/-- The position scan of the word-boundary regex test succeeds exactly
when the text splits into a prefix, a case-insensitive copy of the pattern
and a suffix with word boundaries on both sides of the copy. -/
theorem exactMatchAux_iff (pat : List Char) (hp : pat ≠ []) :
    ∀ (text : List Char) (prev : Option Char),
      exactMatchAux pat prev text = true ↔
        ∃ pre mid post, text = pre ++ (mid ++ post) ∧ lowerL mid = pat ∧
          (wordAtO (lastO prev pre) != wordAtO mid.head?) = true ∧
          (wordAtO mid.getLast? != wordAtO post.head?) = true := by
  intro text
  induction text with
  | nil =>
    intro prev
    simp only [exactMatchAux]
    rw [matchHere_iff pat hp]
    constructor
    · rintro ⟨mid, post, htext, hmid, hb1, hb2⟩
      exact ⟨[], mid, post, by simpa using htext, hmid, by simpa [lastO_nil] using hb1, hb2⟩
    · rintro ⟨pre, mid, post, htext, hmid, hb1, hb2⟩
      exfalso
      have h1 := List.append_eq_nil.mp htext.symm
      have h2 := List.append_eq_nil.mp h1.2
      apply hp
      rw [← hmid, h2.1]
      rfl
  | cons c ts ih =>
    intro prev
    simp only [exactMatchAux, Bool.or_eq_true]
    rw [matchHere_iff pat hp, ih (some c)]
    constructor
    · rintro (⟨mid, post, htext, hmid, hb1, hb2⟩ | ⟨pre, mid, post, htext, hmid, hb1, hb2⟩)
      · exact ⟨[], mid, post, by simpa using htext, hmid, by simpa [lastO_nil] using hb1, hb2⟩
      · exact ⟨c :: pre, mid, post, by simp [htext], hmid, by rwa [lastO_cons], hb2⟩
    · rintro ⟨pre, mid, post, htext, hmid, hb1, hb2⟩
      cases pre with
      | nil =>
        left
        exact ⟨mid, post, by simpa using htext, hmid, by simpa [lastO_nil] using hb1, hb2⟩
      | cons p' pre' =>
        right
        simp only [List.cons_append, List.cons.injEq] at htext
        obtain ⟨hp', hts⟩ := htext
        subst hp'
        exact ⟨pre', mid, post, hts, hmid, by rwa [lastO_cons] at hb1, hb2⟩

/-- C1: in exact mode an entry matches exactly when the trimmed query
occurs in the entry text as a case-insensitive phrase delimited by word
boundaries; in particular cat does not match inside category but does
match inside a cat sat. -/
theorem claim_C1 :
    (∀ (q : String) (e : IndexEntry), trimS q ≠ "" →
      (fastEntryMatches q SMode.exact e = true ↔
        ∃ pre mid post, e.text.data = pre ++ (mid ++ post) ∧
          lowerL mid = lowerL (trimL q.data) ∧
          (wordAtO pre.getLast? != wordAtO mid.head?) = true ∧
          (wordAtO mid.getLast? != wordAtO post.head?) = true)) ∧
    fastEntryMatches "cat" SMode.exact catEntry1 = false ∧
    fastEntryMatches "cat" SMode.exact catEntry2 = true := by
  refine ⟨?_, by decide, by decide⟩
  intro q e hq
  have hg : (trimS q == "") = false := beq_eq_false_iff_ne.mpr hq
  have htr : trimL q.data ≠ [] := fun h => hq (String.ext h)
  have hpat : lowerL (trimL q.data) ≠ [] :=
    fun h => htr (List.map_eq_nil_iff.mp h)
  simp only [fastEntryMatches, hg, Bool.false_eq_true, if_false, fastQueryTerms,
    List.isEmpty_cons, entryMatchesFast, List.headD_cons]
  have hdata : (trimS (lowerS q)).data = lowerL (trimL q.data) := by
    simp only [trimS, lowerS, data_mk]
    exact trimL_lower q.data
  rw [hdata]
  unfold exactMatch
  rw [exactMatchAux_iff (lowerL (trimL q.data)) hpat e.text.data none]
  constructor
  · rintro ⟨pre, mid, post, h1, h2, h3, h4⟩
    refine ⟨pre, mid, post, h1, h2, ?_, h4⟩
    rwa [lastO_none] at h3
  · rintro ⟨pre, mid, post, h1, h2, h3, h4⟩
    refine ⟨pre, mid, post, h1, h2, ?_, h4⟩
    rwa [← lastO_none] at h3

/-- Witness for C1: the query cat matches the entry a cat sat, and the
equivalence produces the explicit boundary-delimited split. -/
theorem claim_C1_witness :
    trimS "cat" ≠ "" ∧
    fastEntryMatches "cat" SMode.exact catEntry2 = true ∧
    (∃ pre mid post, catEntry2.text.data = pre ++ (mid ++ post) ∧
      lowerL mid = lowerL (trimL "cat".data) ∧
      (wordAtO pre.getLast? != wordAtO mid.head?) = true ∧
      (wordAtO mid.getLast? != wordAtO post.head?) = true) := by
  refine ⟨by decide, claim_C1.2.2, ?_⟩
  exact (claim_C1.1 "cat" catEntry2 (by decide)).mp claim_C1.2.2

end ClaudeExplorer
